import Mathlib

/-!
Shallow embedding of the `topsecret` module (`src/index.js`): a `TopSecret`
class holding an optional 256-bit key, with AES-256-CBC buffer encryption
(IV || ciphertext envelopes, PKCS#7 padding), JSON adapters (stringify /
UTF-8 / base64), key and password accessors, and whole-file adapters.

Modelling conventions:
  * Bytes are `Nat`s (with explicit `< 256` bounds where they matter).
  * JavaScript exceptions become `Except Err`; the distinct `throw` sites of
    the source map to the distinct constructors of `Err`.
  * The AES block permutation lives in the external `crypto` library; it is
    modelled as an abstract `BlockCipher` parameter.  CBC chaining, IV
    handling and PKCS#7 padding — the behaviour the envelope format depends
    on — are modelled concretely, as are base64 and UTF-8.
  * Randomness (`crypto.randomBytes`) is modelled by passing the random
    IV as an explicit argument.
  * `JSON.stringify` / `JSON.parse` are the external JS runtime; they are
    modelled as an abstract `JSONCodec` parameter over an abstract type of
    JSON-serializable values.
-/

/-- Error taxonomy: each constructor corresponds to a distinct failure mode
of the JavaScript source (`throw new Error(...)` sites, or runtime
`TypeError`s the interpreter itself raises). -/
inductive Err where
  | PreconditionError
  | ValidationError
  | DecryptionError
  | ParseError
  | IOError
  | TypeError
  deriving DecidableEq, Repr

/-- Byte sequences (JS `Buffer`): lists of naturals, bytes are `< 256`. -/
abbrev Bytes := List Nat

/-- State of a `TopSecret` instance: `this._key` and `this._password`,
both `null` at construction. -/
structure TopSecret where
  key : Option Bytes
  password : Option String
  deriving DecidableEq

/-- The freshly constructed instance (`new TopSecret()`). -/
def freshTopSecret : TopSecret := { key := none, password := none }

/-- Abstract 16-byte block permutation supplied by the external `crypto`
library (the AES-256 core of `aes-256-cbc`): `enc key block` and
`dec key block`. -/
structure BlockCipher where
  enc : Bytes → Bytes → Bytes
  dec : Bytes → Bytes → Bytes

/-- Bytewise XOR, as used by CBC chaining. -/
def xorBytes (a b : Bytes) : Bytes := List.zipWith (fun x y => x ^^^ y) a b

/-- Split a byte sequence into consecutive 16-byte blocks (the final block
may be shorter when the length is not a multiple of 16). -/
def toBlocks (l : Bytes) : List Bytes :=
  if h : l = [] then []
  else l.take 16 :: toBlocks (l.drop 16)
termination_by l.length
decreasing_by
  simp only [List.length_drop]
  have hl : 0 < l.length := List.length_pos.mpr h
  omega

/-- PKCS#7 padding to a multiple of the 16-byte block size, as performed by
`cipher.update`/`cipher.final` for `aes-256-cbc`: append `p` copies of the
byte `p`, where `p = 16 - len % 16` (always between 1 and 16). -/
def pkcs7pad (b : Bytes) : Bytes :=
  b ++ List.replicate (16 - b.length % 16) (16 - b.length % 16)

/-- PKCS#7 unpadding, as performed by `decipher.final`: the last byte `p`
must be between 1 and 16 and the last `p` bytes must all equal `p`;
otherwise the decryption fails (`bad decrypt`). -/
def pkcs7unpad (b : Bytes) : Option Bytes :=
  match b.getLast? with
  | none => none
  | some p =>
    if 1 ≤ p ∧ p ≤ 16 ∧ p ≤ b.length ∧ b.drop (b.length - p) = List.replicate p p
    then some (b.take (b.length - p))
    else none

/-- CBC encryption over a list of 16-byte plaintext blocks: each block is
XORed with the previous ciphertext block (initially the IV) and then put
through the block permutation. -/
def cbcEncBlocks (C : BlockCipher) (k : Bytes) : Bytes → List Bytes → List Bytes
  | _, [] => []
  | prev, b :: bs =>
    let c := C.enc k (xorBytes prev b)
    c :: cbcEncBlocks C k c bs

/-- CBC decryption over a list of ciphertext blocks: invert the block
permutation and XOR with the previous ciphertext block (initially the IV). -/
def cbcDecBlocks (C : BlockCipher) (k : Bytes) : Bytes → List Bytes → List Bytes
  | _, [] => []
  | prev, c :: cs =>
    xorBytes prev (C.dec k c) :: cbcDecBlocks C k c cs

/-- Embedding of `encryptBuffer(buffer)` from `src/index.js`: throws `"Key is not set."`
when `this._key` is null; otherwise encrypts with `aes-256-cbc` under a
fresh random 16-byte IV (here an explicit argument) and returns
`IV || ciphertext`. -/
def encryptBuffer (C : BlockCipher) (ts : TopSecret) (iv buffer : Bytes) :
    Except Err Bytes :=
  match ts.key with
  | none => .error .PreconditionError
  | some k =>
    .ok (iv ++ (cbcEncBlocks C k iv (toBlocks (pkcs7pad buffer))).flatten)

/-- Embedding of `decryptBuffer(buffer)` from `src/index.js`: throws `"Key is not set."`
when `this._key` is null; otherwise splits the first 16 bytes as the IV and
decrypts the rest with `aes-256-cbc`.  The `crypto` library rejects an IV
shorter than 16 bytes, a ciphertext that is not a whole number of blocks
(`wrong final block length`), and invalid padding (`bad decrypt`); all
three surface as the decryption error. -/
def decryptBuffer (C : BlockCipher) (ts : TopSecret) (buffer : Bytes) :
    Except Err Bytes :=
  match ts.key with
  | none => .error .PreconditionError
  | some k =>
    let iv := buffer.take 16
    let ct := buffer.drop 16
    if iv.length ≠ 16 then .error .DecryptionError
    else if ct.length % 16 ≠ 0 then .error .DecryptionError
    else
      match pkcs7unpad (cbcDecBlocks C k iv (toBlocks ct)).flatten with
      | none => .error .DecryptionError
      | some pt => .ok pt

/-- The sixteen lowercase hexadecimal digits. -/
def hexDigits : List Char := "0123456789abcdef".data

/-- Two lowercase hex characters for one byte (`Buffer.toString("hex")`). -/
def hexOfByte (b : Nat) : List Char :=
  [hexDigits.getD (b / 16 % 16) '0', hexDigits.getD (b % 16) '0']

/-- Model of `Buffer.toString("hex")`: lowercase hexadecimal rendering of a buffer. -/
def bytesToHex (bs : Bytes) : String :=
  ⟨(bs.map hexOfByte).flatten⟩

/-- The `key` getter from `src/index.js`: `return this._key.toString("hex")`.
It dereferences `this._key` unconditionally, so when no key is set the JS
runtime raises a `TypeError` (reading `toString` of `null`) rather than the
guarded precondition error used elsewhere. -/
def getKey (ts : TopSecret) : Except Err String :=
  match ts.key with
  | none => .error .TypeError
  | some k => .ok (bytesToHex k)

/-- The `key` setter from `src/index.js`: throws `"Key must be 64 bytes
long."` when `value.length !== 64`; otherwise executes
`this._key = value.from("hex")`.  A JS string has no `from` method
(`Buffer.from` is a static method), so this line raises
`TypeError: value.from is not a function` for every 64-character string and
the key is never assigned. -/
def setKey (ts : TopSecret) (value : String) : Except Err TopSecret :=
  if value.length ≠ 64 then .error .ValidationError
  else .error .TypeError

/-- One-byte UTF-8 unit: ASCII; two to four byte units per the scalar value
ranges, exactly as `Buffer.from(string, "utf8")` encodes. -/
def utf8EncodeChar (c : Char) : Bytes :=
  if c.toNat < 0x80 then [c.toNat]
  else if c.toNat < 0x800 then
    [0xC0 + c.toNat / 64, 0x80 + c.toNat % 64]
  else if c.toNat < 0x10000 then
    [0xE0 + c.toNat / 4096, 0x80 + c.toNat / 64 % 64, 0x80 + c.toNat % 64]
  else
    [0xF0 + c.toNat / 262144, 0x80 + c.toNat / 4096 % 64,
     0x80 + c.toNat / 64 % 64, 0x80 + c.toNat % 64]

/-- Model of `Buffer.from(s, "utf8")`: UTF-8 encoding of a string. -/
def utf8Encode (s : String) : Bytes :=
  (s.data.map utf8EncodeChar).flatten

/-- UTF-8 decoding of a byte sequence into characters, `none` on a malformed
sequence (`buffer.toString("utf8")` followed by a parse of the result; a
malformed sequence can only surface as a downstream parse failure). -/
def utf8DecodeBytes (l : Bytes) : Option (List Char) :=
  if hl : l = [] then some []
  else
    if l.headD 0 < 0x80 then
      (utf8DecodeBytes (l.drop 1)).map (fun cs => Char.ofNat (l.headD 0) :: cs)
    else if l.headD 0 < 0xC0 then none
    else if l.headD 0 < 0xE0 then
      if 2 ≤ l.length ∧ 0x80 ≤ l.getD 1 0 ∧ l.getD 1 0 < 0xC0 then
        (utf8DecodeBytes (l.drop 2)).map
          (fun cs => Char.ofNat ((l.headD 0 - 0xC0) * 64 + (l.getD 1 0 - 0x80)) :: cs)
      else none
    else if l.headD 0 < 0xF0 then
      if 3 ≤ l.length ∧ (0x80 ≤ l.getD 1 0 ∧ l.getD 1 0 < 0xC0) ∧
          0x80 ≤ l.getD 2 0 ∧ l.getD 2 0 < 0xC0 then
        (utf8DecodeBytes (l.drop 3)).map
          (fun cs => Char.ofNat ((l.headD 0 - 0xE0) * 4096 +
            (l.getD 1 0 - 0x80) * 64 + (l.getD 2 0 - 0x80)) :: cs)
      else none
    else if l.headD 0 < 0xF8 then
      if 4 ≤ l.length ∧ (0x80 ≤ l.getD 1 0 ∧ l.getD 1 0 < 0xC0) ∧
          (0x80 ≤ l.getD 2 0 ∧ l.getD 2 0 < 0xC0) ∧
          0x80 ≤ l.getD 3 0 ∧ l.getD 3 0 < 0xC0 then
        (utf8DecodeBytes (l.drop 4)).map
          (fun cs => Char.ofNat ((l.headD 0 - 0xF0) * 262144 +
            (l.getD 1 0 - 0x80) * 4096 + (l.getD 2 0 - 0x80) * 64 +
            (l.getD 3 0 - 0x80)) :: cs)
      else none
    else none
termination_by l.length
decreasing_by
  all_goals
    simp only [List.length_drop]
    have hp : 0 < l.length := List.length_pos.mpr hl
    omega

/-- The `password` setter from `src/index.js`: rejects an empty password
(the `typeof value !== "string"` half of the guard is enforced by typing in
this embedding), stores the password string, and derives the key as the
SHA-256 digest of the UTF-8 password bytes.  The digest function itself is
the external `crypto` library, passed as the `sha256` argument. -/
def setPassword (sha256 : Bytes → Bytes) (ts : TopSecret) (value : String) :
    Except Err TopSecret :=
  if value.length = 0 then .error .ValidationError
  else .ok { key := some (sha256 (utf8Encode value)), password := some value }

/-- The `password` getter from `src/index.js`. -/
def getPassword (ts : TopSecret) : Option String :=
  ts.password

/-- The 64 characters of the standard base64 alphabet, in sextet order. -/
def b64Alphabet : List Char :=
  "ABCDEFGHIJKLMNOPQRSTUVWXYZabcdefghijklmnopqrstuvwxyz0123456789+/".data

/-- Character for a sextet value. -/
def b64Chr (s : Nat) : Char := b64Alphabet.getD s 'A'

/-- Base64 encoding of a byte list, three bytes to four characters, with
`=` padding for a trailing group of one or two bytes
(`Buffer.toString("base64")`). -/
def b64EncodeChunks : Bytes → List Char
  | [] => []
  | [a] => [b64Chr (a / 4), b64Chr (a % 4 * 16), '=', '=']
  | [a, b] => [b64Chr (a / 4), b64Chr (a % 4 * 16 + b / 16), b64Chr (b % 16 * 4), '=']
  | a :: b :: c :: rest =>
    b64Chr (a / 4) :: b64Chr (a % 4 * 16 + b / 16) ::
      b64Chr (b % 16 * 4 + c / 64) :: b64Chr (c % 64) :: b64EncodeChunks rest

/-- Model of `Buffer.toString("base64")` as a string. -/
def b64Encode (b : Bytes) : String := ⟨b64EncodeChunks b⟩

/-- Reassemble bytes from a list of sextet values: four sextets to three
bytes, a trailing group of two or three sextets to one or two bytes. -/
def b64DecodeSextets : List Nat → Bytes
  | s1 :: s2 :: s3 :: s4 :: rest =>
    (s1 * 4 + s2 / 16) :: (s2 % 16 * 16 + s3 / 4) :: (s3 % 4 * 64 + s4) ::
      b64DecodeSextets rest
  | [s1, s2] => [s1 * 4 + s2 / 16]
  | [s1, s2, s3] => [s1 * 4 + s2 / 16, s2 % 16 * 16 + s3 / 4]
  | _ => []

/-- Model of `Buffer.from(text, "base64")`: drop the `=` padding, map each character
to its sextet, reassemble the bytes. -/
def b64Decode (text : String) : Bytes :=
  b64DecodeSextets ((text.data.filter (fun ch => ch ≠ '=')).map
    (fun ch => b64Alphabet.indexOf ch))

/-- Abstract `JSON.stringify` / `JSON.parse` pair of the external JS
runtime, over an abstract type `J` of JSON-serializable values
(`parse` is partial: not every string is valid JSON). -/
structure JSONCodec (J : Type) where
  stringify : J → String
  parse : String → Option J

/-- Embedding of `encryptJSON(data)` from `src/index.js`: guard on the key, serialize
with `JSON.stringify`, UTF-8 encode, encrypt the buffer, base64 encode the
envelope. -/
def encryptJSON {J : Type} (C : BlockCipher) (L : JSONCodec J) (ts : TopSecret)
    (iv : Bytes) (data : J) : Except Err String :=
  match ts.key with
  | none => .error .PreconditionError
  | some _ =>
    let jsonString := L.stringify data
    match encryptBuffer C ts iv (utf8Encode jsonString) with
    | .error e => .error e
    | .ok envelope => .ok (b64Encode envelope)

/-- Embedding of `decryptJSON(encryptedData)` from `src/index.js`: guard on the key,
base64 decode, decrypt the buffer, UTF-8 decode, `JSON.parse`. -/
def decryptJSON {J : Type} (C : BlockCipher) (L : JSONCodec J) (ts : TopSecret)
    (encryptedData : String) : Except Err J :=
  match ts.key with
  | none => .error .PreconditionError
  | some _ =>
    match decryptBuffer C ts (b64Decode encryptedData) with
    | .error e => .error e
    | .ok decrypted =>
      match utf8DecodeBytes decrypted with
      | none => .error .ParseError
      | some cs =>
        match L.parse ⟨cs⟩ with
        | none => .error .ParseError
        | some v => .ok v

/-- In-memory file system: file names to byte contents. -/
def FSModel := String → Option Bytes

/-- Model of `fs.readFileSync`: fails when the file does not exist. -/
def readFileSync (fs : FSModel) (filename : String) : Except Err Bytes :=
  match fs filename with
  | none => .error .IOError
  | some b => .ok b

/-- Model of `fs.writeFileSync`: overwrite semantics. -/
def writeFileSync (fs : FSModel) (filename : String) (b : Bytes) : FSModel :=
  fun n => if n = filename then some b else fs n

/-- Modelled from the spec: `encryptFile(srcPath, dstPath)` is called by the
test suite of the repository but absent from `src/index.js`; spec section 4.4
says it reads all bytes from `srcPath`, applies `encryptBuffer`, writes the
envelope to `dstPath` (overwrite), and re-wraps any lower-layer failure
into a generic I/O error. -/
def encryptFile (C : BlockCipher) (ts : TopSecret) (iv : Bytes) (fs : FSModel)
    (srcPath dstPath : String) : Except Err FSModel :=
  match readFileSync fs srcPath with
  | .error _ => .error .IOError
  | .ok content =>
    match encryptBuffer C ts iv content with
    | .error _ => .error .IOError
    | .ok envelope => .ok (writeFileSync fs dstPath envelope)

/-- Modelled from the spec: `decryptFile(srcPath, dstPath)` is called by the
test suite of the repository but absent from `src/index.js`; spec section 4.4
says it reads all bytes from `srcPath`, applies `decryptBuffer`, writes the
plaintext to `dstPath` (overwrite), and re-wraps any lower-layer failure
into a generic I/O error. -/
def decryptFile (C : BlockCipher) (ts : TopSecret) (fs : FSModel)
    (srcPath dstPath : String) : Except Err FSModel :=
  match readFileSync fs srcPath with
  | .error _ => .error .IOError
  | .ok envelope =>
    match decryptBuffer C ts envelope with
    | .error _ => .error .IOError
    | .ok plaintext => .ok (writeFileSync fs dstPath plaintext)

/-- Contract of the external AES-256 block permutation used through
`crypto.createCipheriv("aes-256-cbc", ...)`: on 16-byte blocks it preserves
the length, keeps bytes in range, and is inverted by the decryption
direction. -/
structure LawfulCipher (C : BlockCipher) (k : Bytes) : Prop where
  enc_length : ∀ b : Bytes, b.length = 16 → (C.enc k b).length = 16
  enc_bounded : ∀ b : Bytes, b.length = 16 → (∀ x ∈ b, x < 256) →
    ∀ x ∈ C.enc k b, x < 256
  dec_enc : ∀ b : Bytes, b.length = 16 → C.dec k (C.enc k b) = b

/-- The identity block permutation: a concrete `BlockCipher` instance used
to evaluate the theorems on closed inputs. -/
def idCipher : BlockCipher := { enc := fun _ b => b, dec := fun _ b => b }

/-- A concrete stand-in for the external digest function, used to evaluate
the theorems on closed inputs. -/
def constHash : Bytes → Bytes := fun _ => List.replicate 32 0

/-- A concrete trivial `JSONCodec` over `Unit`, used to evaluate the
theorems on closed inputs. -/
def unitCodec : JSONCodec Unit :=
  { stringify := fun _ => "", parse := fun _ => some () }

/-- The identity permutation satisfies the block-cipher contract. -/
theorem idCipher_lawful (k : Bytes) : LawfulCipher idCipher k where
  enc_length := fun _ h => h
  enc_bounded := fun _ _ hb => hb
  dec_enc := fun _ _ => rfl

theorem xorBytes_length (a b : Bytes) :
    (xorBytes a b).length = min a.length b.length := by
  simp [xorBytes]

theorem xorBytes_xorBytes (a : Bytes) :
    ∀ b : Bytes, a.length = b.length → xorBytes a (xorBytes a b) = b := by
  induction a with
  | nil => intro b hb; cases b <;> simp_all [xorBytes]
  | cons x xs ih =>
    intro b hb
    cases b with
    | nil => simp at hb
    | cons y ys =>
      have h1 : x ^^^ (x ^^^ y) = y := by
        rw [← Nat.xor_assoc, Nat.xor_self, Nat.zero_xor]
      have h2 := ih ys (by simpa using hb)
      simp only [xorBytes, List.zipWith_cons_cons] at h2 ⊢
      rw [h1, h2]

theorem xorBytes_bounded (a : Bytes) :
    ∀ b : Bytes, (∀ x ∈ a, x < 256) → (∀ x ∈ b, x < 256) →
      ∀ x ∈ xorBytes a b, x < 256 := by
  induction a with
  | nil => simp [xorBytes]
  | cons x xs ih =>
    intro b ha hb z hz
    cases b with
    | nil => simp [xorBytes] at hz
    | cons y ys =>
      simp only [xorBytes, List.zipWith_cons_cons, List.mem_cons] at hz
      rcases hz with hz | hz
      · subst hz
        have h256 : (256 : Nat) = 2 ^ 8 := by norm_num
        rw [h256]
        exact Nat.xor_lt_two_pow (by rw [← h256]; exact ha x (by simp))
          (by rw [← h256]; exact hb y (by simp))
      · exact ih ys (fun u hu => ha u (by simp [hu])) (fun u hu => hb u (by simp [hu])) z hz

theorem take_of_append (n : Nat) (l r : List Nat) (h : l.length = n) :
    (l ++ r).take n = l := by
  subst h; exact List.take_left l r

theorem drop_of_append (n : Nat) (l r : List Nat) (h : l.length = n) :
    (l ++ r).drop n = r := by
  subst h; exact List.drop_left l r

theorem toBlocks_nil : toBlocks [] = [] := by
  simp [toBlocks]

theorem toBlocks_append16 (b r : Bytes) (hb : b.length = 16) :
    toBlocks (b ++ r) = b :: toBlocks r := by
  rw [toBlocks]
  have hne : b ++ r ≠ [] := by
    intro h
    have : b = [] := (List.append_eq_nil.mp h).1
    simp [this] at hb
  rw [dif_neg hne, take_of_append 16 b r hb, drop_of_append 16 b r hb]

theorem toBlocks_flatten (L : List Bytes) (h : ∀ bl ∈ L, bl.length = 16) :
    toBlocks L.flatten = L := by
  induction L with
  | nil => simpa using toBlocks_nil
  | cons b bs ih =>
    rw [List.flatten_cons, toBlocks_append16 b bs.flatten (h b (by simp))]
    rw [ih (fun bl hbl => h bl (by simp [hbl]))]

theorem flatten_toBlocks (l : Bytes) : (toBlocks l).flatten = l := by
  rw [toBlocks]
  by_cases h : l = []
  · simp [h]
  · rw [dif_neg h]
    rw [List.flatten_cons, flatten_toBlocks (l.drop 16), List.take_append_drop]
termination_by l.length
decreasing_by
  simp only [List.length_drop]
  have hl : 0 < l.length := List.length_pos.mpr h
  omega

theorem flatten_length_16 (L : List Bytes) (h : ∀ bl ∈ L, bl.length = 16) :
    L.flatten.length = 16 * L.length := by
  induction L with
  | nil => simp
  | cons b bs ih =>
    simp only [List.flatten_cons, List.length_append, List.length_cons]
    rw [h b (by simp), ih (fun bl hbl => h bl (by simp [hbl]))]
    ring

theorem toBlocks_length_all (l : Bytes) (h : l.length % 16 = 0) :
    ∀ bl ∈ toBlocks l, bl.length = 16 := by
  rw [toBlocks]
  by_cases hl : l = []
  · simp [hl]
  · rw [dif_neg hl]
    intro bl hbl
    have hpos : 0 < l.length := List.length_pos.mpr hl
    have h16 : 16 ≤ l.length := by omega
    rcases List.mem_cons.mp hbl with hbl | hbl
    · subst hbl; simp [List.length_take]; omega
    · exact toBlocks_length_all (l.drop 16)
        (by simp only [List.length_drop]; omega) bl hbl
termination_by l.length
decreasing_by
  simp only [List.length_drop]
  have hl2 : 0 < l.length := List.length_pos.mpr hl
  omega

theorem toBlocks_count (l : Bytes) (h : l.length % 16 = 0) :
    (toBlocks l).length = l.length / 16 := by
  rw [toBlocks]
  by_cases hl : l = []
  · simp [hl]
  · rw [dif_neg hl]
    have hpos : 0 < l.length := List.length_pos.mpr hl
    have h16 : 16 ≤ l.length := by omega
    simp only [List.length_cons]
    rw [toBlocks_count (l.drop 16) (by simp only [List.length_drop]; omega)]
    simp only [List.length_drop]
    omega
termination_by l.length
decreasing_by
  simp only [List.length_drop]
  have hl2 : 0 < l.length := List.length_pos.mpr hl
  omega

theorem toBlocks_bounded (l : Bytes) (h : ∀ x ∈ l, x < 256) :
    ∀ bl ∈ toBlocks l, ∀ x ∈ bl, x < 256 := by
  rw [toBlocks]
  by_cases hl : l = []
  · simp [hl]
  · rw [dif_neg hl]
    intro bl hbl
    rcases List.mem_cons.mp hbl with hbl | hbl
    · subst hbl; exact fun x hx => h x (List.take_subset 16 l hx)
    · exact toBlocks_bounded (l.drop 16)
        (fun x hx => h x (List.drop_subset 16 l hx)) bl hbl
termination_by l.length
decreasing_by
  simp only [List.length_drop]
  have hl2 : 0 < l.length := List.length_pos.mpr hl
  omega

theorem pkcs7pad_length (b : Bytes) :
    (pkcs7pad b).length = 16 * (b.length / 16 + 1) := by
  simp only [pkcs7pad, List.length_append, List.length_replicate]
  omega

theorem pkcs7pad_mod (b : Bytes) : (pkcs7pad b).length % 16 = 0 := by
  rw [pkcs7pad_length]; omega

theorem pkcs7pad_bounded (b : Bytes) (h : ∀ x ∈ b, x < 256) :
    ∀ x ∈ pkcs7pad b, x < 256 := by
  intro x hx
  simp only [pkcs7pad, List.mem_append, List.mem_replicate] at hx
  rcases hx with hx | hx
  · exact h x hx
  · omega

theorem replicate_eq_concat (p : Nat) (hp : 1 ≤ p) (x : Nat) :
    List.replicate p x = List.replicate (p - 1) x ++ [x] := by
  obtain ⟨q, rfl⟩ : ∃ q, p = q + 1 := ⟨p - 1, by omega⟩
  simp [List.replicate_succ']

theorem pkcs7unpad_pkcs7pad (b : Bytes) : pkcs7unpad (pkcs7pad b) = some b := by
  have hp1 : 1 ≤ 16 - b.length % 16 := by omega
  have hp16 : 16 - b.length % 16 ≤ 16 := by omega
  set p := 16 - b.length % 16 with hp
  have hlast : (pkcs7pad b).getLast? = some p := by
    rw [pkcs7pad, ← hp, replicate_eq_concat p hp1 p, ← List.append_assoc]
    exact List.getLast?_concat _
  have hlen : (pkcs7pad b).length = b.length + p := by
    simp [pkcs7pad, ← hp]
  have hsub : (pkcs7pad b).length - p = b.length := by omega
  have hcond : 1 ≤ p ∧ p ≤ 16 ∧ p ≤ (pkcs7pad b).length ∧
      (pkcs7pad b).drop ((pkcs7pad b).length - p) = List.replicate p p := by
    refine ⟨hp1, hp16, by omega, ?_⟩
    rw [hsub, pkcs7pad, ← hp, drop_of_append b.length b _ rfl]
  simp only [pkcs7unpad, hlast]
  rw [if_pos hcond, hsub, pkcs7pad, ← hp, take_of_append b.length b _ rfl]

theorem cbcEncBlocks_length_all (C : BlockCipher) (k : Bytes)
    (hC : LawfulCipher C k) :
    ∀ (bs : List Bytes) (prev : Bytes), prev.length = 16 →
      (∀ bl ∈ bs, bl.length = 16) →
      ∀ c ∈ cbcEncBlocks C k prev bs, c.length = 16 := by
  intro bs
  induction bs with
  | nil => simp [cbcEncBlocks]
  | cons b rest ih =>
    intro prev hprev hbs c hc
    simp only [cbcEncBlocks, List.mem_cons] at hc
    have hxlen : (xorBytes prev b).length = 16 := by
      rw [xorBytes_length, hprev, hbs b (by simp)]; omega
    have hclen : (C.enc k (xorBytes prev b)).length = 16 := hC.enc_length _ hxlen
    rcases hc with hc | hc
    · subst hc; exact hclen
    · exact ih _ hclen (fun bl hbl => hbs bl (by simp [hbl])) c hc

theorem cbcEncBlocks_count (C : BlockCipher) (k : Bytes) :
    ∀ (bs : List Bytes) (prev : Bytes),
      (cbcEncBlocks C k prev bs).length = bs.length := by
  intro bs
  induction bs with
  | nil => simp [cbcEncBlocks]
  | cons b rest ih => intro prev; simp [cbcEncBlocks, ih]

theorem cbcDecBlocks_cbcEncBlocks (C : BlockCipher) (k : Bytes)
    (hC : LawfulCipher C k) :
    ∀ (bs : List Bytes) (prev : Bytes), prev.length = 16 →
      (∀ bl ∈ bs, bl.length = 16) →
      cbcDecBlocks C k prev (cbcEncBlocks C k prev bs) = bs := by
  intro bs
  induction bs with
  | nil => simp [cbcEncBlocks, cbcDecBlocks]
  | cons b rest ih =>
    intro prev hprev hbs
    have hblen : b.length = 16 := hbs b (by simp)
    have hxlen : (xorBytes prev b).length = 16 := by
      rw [xorBytes_length, hprev, hblen]; omega
    simp only [cbcEncBlocks, cbcDecBlocks]
    rw [hC.dec_enc _ hxlen, xorBytes_xorBytes prev b (by omega)]
    rw [ih _ (hC.enc_length _ hxlen) (fun bl hbl => hbs bl (by simp [hbl]))]

theorem cbcEncBlocks_bounded (C : BlockCipher) (k : Bytes)
    (hC : LawfulCipher C k) :
    ∀ (bs : List Bytes) (prev : Bytes), prev.length = 16 →
      (∀ x ∈ prev, x < 256) →
      (∀ bl ∈ bs, bl.length = 16) →
      (∀ bl ∈ bs, ∀ x ∈ bl, x < 256) →
      ∀ c ∈ cbcEncBlocks C k prev bs, ∀ x ∈ c, x < 256 := by
  intro bs
  induction bs with
  | nil => simp [cbcEncBlocks]
  | cons b rest ih =>
    intro prev hprev hprevB hbs hbsB c hc
    have hblen : b.length = 16 := hbs b (by simp)
    have hxlen : (xorBytes prev b).length = 16 := by
      rw [xorBytes_length, hprev, hblen]; omega
    have hxB : ∀ x ∈ xorBytes prev b, x < 256 :=
      xorBytes_bounded prev b hprevB (hbsB b (by simp))
    have hcB : ∀ x ∈ C.enc k (xorBytes prev b), x < 256 :=
      hC.enc_bounded _ hxlen hxB
    simp only [cbcEncBlocks, List.mem_cons] at hc
    rcases hc with hc | hc
    · subst hc; exact hcB
    · exact ih _ (hC.enc_length _ hxlen) hcB
        (fun bl hbl => hbs bl (by simp [hbl]))
        (fun bl hbl => hbsB bl (by simp [hbl])) c hc

/-- Core round-trip fact shared by the buffer, JSON and file layers:
with a key set, a lawful block cipher and a 16-byte IV, `decryptBuffer`
inverts `encryptBuffer`. -/
theorem roundtrip_core (C : BlockCipher) (k : Bytes) (ts : TopSecret)
    (iv b : Bytes) (hk : ts.key = some k) (hC : LawfulCipher C k)
    (hiv : iv.length = 16) :
    decryptBuffer C ts
      (iv ++ (cbcEncBlocks C k iv (toBlocks (pkcs7pad b))).flatten) =
      Except.ok b := by
  have hpadB : ∀ bl ∈ toBlocks (pkcs7pad b), bl.length = 16 :=
    toBlocks_length_all _ (pkcs7pad_mod b)
  have hctB : ∀ c ∈ cbcEncBlocks C k iv (toBlocks (pkcs7pad b)), c.length = 16 :=
    cbcEncBlocks_length_all C k hC _ iv hiv hpadB
  set ct := (cbcEncBlocks C k iv (toBlocks (pkcs7pad b))).flatten with hct
  have hctlen : ct.length = 16 * (cbcEncBlocks C k iv (toBlocks (pkcs7pad b))).length :=
    flatten_length_16 _ hctB
  rw [decryptBuffer, hk]
  simp only [take_of_append 16 iv ct hiv, drop_of_append 16 iv ct hiv]
  rw [if_neg (by rw [hiv]; omega), if_neg (by rw [hctlen]; omega)]
  rw [hct, toBlocks_flatten _ hctB]
  rw [cbcDecBlocks_cbcEncBlocks C k hC _ iv hiv hpadB]
  rw [flatten_toBlocks, pkcs7unpad_pkcs7pad]

/-- With a key set, `encryptBuffer` computes the CBC envelope. -/
theorem encryptBuffer_ok (C : BlockCipher) (k : Bytes) (ts : TopSecret)
    (iv b : Bytes) (hk : ts.key = some k) :
    encryptBuffer C ts iv b =
      Except.ok (iv ++ (cbcEncBlocks C k iv (toBlocks (pkcs7pad b))).flatten) := by
  rw [encryptBuffer, hk]

/-- C1: for every byte sequence `b` and every set 256-bit key `k`,
decrypting the envelope produced by encrypting `b` returns exactly `b`:
`decryptBuffer(encryptBuffer(b)) == b` on the same instance with key `k`
(for any 16-byte IV drawn by `crypto.randomBytes` and any block cipher
satisfying the AES contract). -/
theorem encryptBuffer_decryptBuffer_roundtrip (C : BlockCipher) (k : Bytes)
    (ts : TopSecret) (iv b : Bytes) (hk : ts.key = some k)
    (hC : LawfulCipher C k) (hiv : iv.length = 16) :
    ∃ env, encryptBuffer C ts iv b = Except.ok env ∧
      decryptBuffer C ts env = Except.ok b :=
  ⟨_, encryptBuffer_ok C k ts iv b hk, roundtrip_core C k ts iv b hk hC hiv⟩

/-- Witness for C1 at a concrete key, IV and plaintext. -/
theorem encryptBuffer_decryptBuffer_roundtrip_witness :
    ∃ env,
      encryptBuffer idCipher { key := some (List.replicate 32 7), password := none }
        (List.replicate 16 1) [1, 2, 3] = Except.ok env ∧
      decryptBuffer idCipher { key := some (List.replicate 32 7), password := none }
        env = Except.ok [1, 2, 3] :=
  encryptBuffer_decryptBuffer_roundtrip idCipher (List.replicate 32 7) _
    (List.replicate 16 1) [1, 2, 3] rfl (idCipher_lawful _) (by simp)

/-- C10: for every set key and every plaintext of `n` bytes, the envelope
returned by `encryptBuffer` has length exactly `16 + 16 * (n / 16 + 1)`
bytes; in particular every envelope is at least 32 bytes long and its
length is a multiple of 16. -/
theorem encryptBuffer_envelope_length (C : BlockCipher) (k : Bytes)
    (ts : TopSecret) (iv b : Bytes) (hk : ts.key = some k)
    (hC : LawfulCipher C k) (hiv : iv.length = 16) :
    ∃ env, encryptBuffer C ts iv b = Except.ok env ∧
      env.length = 16 + 16 * (b.length / 16 + 1) ∧
      32 ≤ env.length ∧ env.length % 16 = 0 := by
  refine ⟨_, encryptBuffer_ok C k ts iv b hk, ?_⟩
  have hpadB : ∀ bl ∈ toBlocks (pkcs7pad b), bl.length = 16 :=
    toBlocks_length_all _ (pkcs7pad_mod b)
  have hctB : ∀ c ∈ cbcEncBlocks C k iv (toBlocks (pkcs7pad b)), c.length = 16 :=
    cbcEncBlocks_length_all C k hC _ iv hiv hpadB
  have hlen1 : (cbcEncBlocks C k iv (toBlocks (pkcs7pad b))).flatten.length =
      16 * (cbcEncBlocks C k iv (toBlocks (pkcs7pad b))).length :=
    flatten_length_16 _ hctB
  have hcount : (cbcEncBlocks C k iv (toBlocks (pkcs7pad b))).length =
      (toBlocks (pkcs7pad b)).length := cbcEncBlocks_count C k _ iv
  have hcount2 : (toBlocks (pkcs7pad b)).length = (pkcs7pad b).length / 16 :=
    toBlocks_count _ (pkcs7pad_mod b)
  have hpl : (pkcs7pad b).length = 16 * (b.length / 16 + 1) := pkcs7pad_length b
  simp only [List.length_append, hiv, hlen1, hcount, hcount2, hpl]
  omega

/-- Witness for C10 at a concrete key, IV and plaintext. -/
theorem encryptBuffer_envelope_length_witness :
    ∃ env,
      encryptBuffer idCipher { key := some (List.replicate 32 7), password := none }
        (List.replicate 16 1) [1, 2, 3] = Except.ok env ∧
      env.length = 16 + 16 * ((3 : Nat) / 16 + 1) ∧
      32 ≤ env.length ∧ env.length % 16 = 0 :=
  encryptBuffer_envelope_length idCipher (List.replicate 32 7) _
    (List.replicate 16 1) [1, 2, 3] rfl (idCipher_lawful _) (by simp)

/-- C8: for every set key, `decryptBuffer` fails with the decryption error
on every envelope that is shorter than 16 bytes, or whose ciphertext
portion is not a multiple of the 16-byte block size, or whose padding is
invalid after CBC decryption. -/
theorem decryptBuffer_malformed_decryptionError (C : BlockCipher) (k : Bytes)
    (ts : TopSecret) (env : Bytes) (hk : ts.key = some k)
    (h : env.length < 16 ∨ (env.drop 16).length % 16 ≠ 0 ∨
      pkcs7unpad (cbcDecBlocks C k (env.take 16) (toBlocks (env.drop 16))).flatten
        = none) :
    decryptBuffer C ts env = Except.error Err.DecryptionError := by
  simp only [decryptBuffer, hk]
  by_cases h1 : (env.take 16).length ≠ 16
  · rw [if_pos h1]
  · rw [if_neg h1]
    push_neg at h1
    have henvlen : 16 ≤ env.length := by
      rw [List.length_take] at h1; omega
    by_cases h2 : (env.drop 16).length % 16 ≠ 0
    · rw [if_pos h2]
    · rw [if_neg h2]
      push_neg at h2
      rcases h with h | h | h
      · omega
      · exact absurd h2 h
      · rw [h]

/-- Witness for C8 at a concrete key and short envelope. -/
theorem decryptBuffer_malformed_decryptionError_witness :
    decryptBuffer idCipher { key := some (List.replicate 32 7), password := none }
      [0, 1, 2] = Except.error Err.DecryptionError :=
  decryptBuffer_malformed_decryptionError idCipher (List.replicate 32 7) _
    [0, 1, 2] rfl (by left; simp)

/-- C7: for every plaintext `b` and every set key, two calls to
`encryptBuffer b` drawing distinct fresh 16-byte IVs return different
envelopes, yet both envelopes decrypt via `decryptBuffer` to the identical
original `b` (randomness of `crypto.randomBytes` is modelled by the two
explicit IV arguments). -/
theorem encrypt_fresh_iv_distinct_envelopes (C : BlockCipher) (k : Bytes)
    (ts : TopSecret) (b iv1 iv2 : Bytes) (hk : ts.key = some k)
    (hC : LawfulCipher C k) (h1 : iv1.length = 16) (h2 : iv2.length = 16)
    (hne : iv1 ≠ iv2) :
    ∃ e1 e2, encryptBuffer C ts iv1 b = Except.ok e1 ∧
      encryptBuffer C ts iv2 b = Except.ok e2 ∧ e1 ≠ e2 ∧
      decryptBuffer C ts e1 = Except.ok b ∧
      decryptBuffer C ts e2 = Except.ok b := by
  refine ⟨_, _, encryptBuffer_ok C k ts iv1 b hk, encryptBuffer_ok C k ts iv2 b hk,
    ?_, roundtrip_core C k ts iv1 b hk hC h1, roundtrip_core C k ts iv2 b hk hC h2⟩
  intro heq
  apply hne
  have htake := congrArg (List.take 16) heq
  rwa [take_of_append 16 iv1 _ h1, take_of_append 16 iv2 _ h2] at htake

/-- Witness for C7 at a concrete key, two concrete IVs and a plaintext. -/
theorem encrypt_fresh_iv_distinct_envelopes_witness :
    ∃ e1 e2,
      encryptBuffer idCipher { key := some (List.replicate 32 7), password := none }
        (List.replicate 16 1) [9, 9] = Except.ok e1 ∧
      encryptBuffer idCipher { key := some (List.replicate 32 7), password := none }
        (List.replicate 16 2) [9, 9] = Except.ok e2 ∧ e1 ≠ e2 ∧
      decryptBuffer idCipher { key := some (List.replicate 32 7), password := none }
        e1 = Except.ok [9, 9] ∧
      decryptBuffer idCipher { key := some (List.replicate 32 7), password := none }
        e2 = Except.ok [9, 9] :=
  encrypt_fresh_iv_distinct_envelopes idCipher (List.replicate 32 7) _ [9, 9]
    (List.replicate 16 1) (List.replicate 16 2) rfl (idCipher_lawful _)
    (by simp) (by simp) (by decide)

/-- C4: on an instance with no key set, each of `encryptBuffer`,
`decryptBuffer`, `encryptJSON` and `decryptJSON` fails with the
precondition error (`"Key is not set."`) rather than proceeding or
silently doing nothing. -/
theorem no_key_operations_preconditionError {J : Type} (C : BlockCipher)
    (L : JSONCodec J) (ts : TopSecret) (iv b : Bytes) (j : J) (s : String)
    (hk : ts.key = none) :
    encryptBuffer C ts iv b = Except.error Err.PreconditionError ∧
    decryptBuffer C ts b = Except.error Err.PreconditionError ∧
    encryptJSON C L ts iv j = Except.error Err.PreconditionError ∧
    decryptJSON C L ts s = Except.error Err.PreconditionError := by
  refine ⟨?_, ?_, ?_, ?_⟩ <;>
    simp [encryptBuffer, decryptBuffer, encryptJSON, decryptJSON, hk]

/-- Witness for C4 at the freshly constructed instance. -/
theorem no_key_operations_preconditionError_witness :
    encryptBuffer idCipher freshTopSecret [] [] =
      Except.error Err.PreconditionError ∧
    decryptBuffer idCipher freshTopSecret [] =
      Except.error Err.PreconditionError ∧
    encryptJSON idCipher unitCodec freshTopSecret [] () =
      Except.error Err.PreconditionError ∧
    decryptJSON idCipher unitCodec freshTopSecret "" =
      Except.error Err.PreconditionError :=
  no_key_operations_preconditionError idCipher unitCodec freshTopSecret
    [] [] () "" rfl

theorem b64Chr_ne_eq : ∀ s < 64, b64Chr s ≠ '=' := by decide

theorem b64_lookup : ∀ s < 64, b64Alphabet.indexOf (b64Chr s) = s := by decide

theorem b64core : ∀ b : Bytes, (∀ x ∈ b, x < 256) →
    b64DecodeSextets (((b64EncodeChunks b).filter (fun ch => ch ≠ '=')).map
      (fun ch => b64Alphabet.indexOf ch)) = b
  | [], _ => rfl
  | [a], h => by
    have ha : a < 256 := h a (by simp)
    have n1 : b64Chr (a / 4) ≠ '=' := b64Chr_ne_eq _ (by omega)
    have n2 : b64Chr (a % 4 * 16) ≠ '=' := b64Chr_ne_eq _ (by omega)
    have e1 := b64_lookup (a / 4) (by omega)
    have e2 := b64_lookup (a % 4 * 16) (by omega)
    simp [b64EncodeChunks, b64DecodeSextets, n1, n2, e1, e2]
    omega
  | [a, b], h => by
    have ha : a < 256 := h a (by simp)
    have hb : b < 256 := h b (by simp)
    have n1 : b64Chr (a / 4) ≠ '=' := b64Chr_ne_eq _ (by omega)
    have n2 : b64Chr (a % 4 * 16 + b / 16) ≠ '=' := b64Chr_ne_eq _ (by omega)
    have n3 : b64Chr (b % 16 * 4) ≠ '=' := b64Chr_ne_eq _ (by omega)
    have e1 := b64_lookup (a / 4) (by omega)
    have e2 := b64_lookup (a % 4 * 16 + b / 16) (by omega)
    have e3 := b64_lookup (b % 16 * 4) (by omega)
    simp [b64EncodeChunks, b64DecodeSextets, n1, n2, n3, e1, e2, e3]
    constructor
    · omega
    · omega
  | a :: b :: c :: rest, h => by
    have ha : a < 256 := h a (by simp)
    have hb : b < 256 := h b (by simp)
    have hc : c < 256 := h c (by simp)
    have n1 : b64Chr (a / 4) ≠ '=' := b64Chr_ne_eq _ (by omega)
    have n2 : b64Chr (a % 4 * 16 + b / 16) ≠ '=' := b64Chr_ne_eq _ (by omega)
    have n3 : b64Chr (b % 16 * 4 + c / 64) ≠ '=' := b64Chr_ne_eq _ (by omega)
    have n4 : b64Chr (c % 64) ≠ '=' := b64Chr_ne_eq _ (by omega)
    have e1 := b64_lookup (a / 4) (by omega)
    have e2 := b64_lookup (a % 4 * 16 + b / 16) (by omega)
    have e3 := b64_lookup (b % 16 * 4 + c / 64) (by omega)
    have e4 := b64_lookup (c % 64) (by omega)
    have ih := b64core rest (fun x hx => h x (by simp [hx]))
    simp [b64EncodeChunks, b64DecodeSextets, n1, n2, n3, n4]
    simp only [e1, e2, e3, e4]
    refine ⟨by omega, by omega, by omega, ?_⟩
    simpa using ih

/-- Base64 decoding inverts base64 encoding on byte sequences. -/
theorem b64Decode_b64Encode (b : Bytes) (h : ∀ x ∈ b, x < 256) :
    b64Decode (b64Encode b) = b := by
  have : (b64Encode b).data = b64EncodeChunks b := rfl
  rw [b64Decode, this]
  exact b64core b h

theorem char_toNat_lt (c : Char) : c.toNat < 1114112 := by
  have h := c.valid
  rcases h with h | h
  · show c.val.toNat < 1114112; omega
  · show c.val.toNat < 1114112; omega

theorem utf8EncodeChar_bounded (c : Char) : ∀ x ∈ utf8EncodeChar c, x < 256 := by
  have hv := char_toNat_lt c
  rw [utf8EncodeChar]
  by_cases h1 : c.toNat < 0x80
  · rw [if_pos h1]; intro x hx; simp at hx; omega
  · rw [if_neg h1]
    by_cases h2 : c.toNat < 0x800
    · rw [if_pos h2]; intro x hx; simp at hx; rcases hx with hx | hx <;> omega
    · rw [if_neg h2]
      by_cases h3 : c.toNat < 0x10000
      · rw [if_pos h3]; intro x hx; simp at hx
        rcases hx with hx | hx | hx <;> omega
      · rw [if_neg h3]; intro x hx; simp at hx
        rcases hx with hx | hx | hx | hx <;> omega

theorem utf8Encode_bounded (s : String) : ∀ x ∈ utf8Encode s, x < 256 := by
  rw [utf8Encode]
  intro x hx
  rw [List.mem_flatten] at hx
  rcases hx with ⟨l, hl, hxl⟩
  rw [List.mem_map] at hl
  rcases hl with ⟨c, _, rfl⟩
  exact utf8EncodeChar_bounded c x hxl

theorem utf8DecodeBytes_encodeChar (c : Char) (rest : Bytes) :
    utf8DecodeBytes (utf8EncodeChar c ++ rest) =
      (utf8DecodeBytes rest).map (fun cs => c :: cs) := by
  have hv := char_toNat_lt c
  have hofNat := Char.ofNat_toNat c
  rw [utf8EncodeChar]
  by_cases h1 : c.toNat < 0x80
  · rw [if_pos h1]
    simp only [List.cons_append, List.nil_append]
    rw [utf8DecodeBytes, dif_neg (List.cons_ne_nil _ _)]
    simp [h1, hofNat]
  · rw [if_neg h1]
    by_cases h2 : c.toNat < 0x800
    · rw [if_pos h2]
      simp only [List.cons_append, List.nil_append]
      rw [utf8DecodeBytes, dif_neg (List.cons_ne_nil _ _)]
      have hA : ¬ (0xC0 + c.toNat / 64 < 0x80) := by omega
      have hB : ¬ (0xC0 + c.toNat / 64 < 0xC0) := by omega
      have hC : 0xC0 + c.toNat / 64 < 0xE0 := by omega
      have hD : 0x80 ≤ 0x80 + c.toNat % 64 ∧ 0x80 + c.toNat % 64 < 0xC0 := by
        constructor <;> omega
      have harg : (0xC0 + c.toNat / 64 - 0xC0) * 64 + (0x80 + c.toNat % 64 - 0x80)
          = c.toNat := by omega
      simp [hA, hB, hC, hD, harg, hofNat, Nat.le_add_left]
      rw [show c.toNat / 64 * 64 + c.toNat % 64 = c.toNat by omega, hofNat]
    · rw [if_neg h2]
      by_cases h3 : c.toNat < 0x10000
      · rw [if_pos h3]
        simp only [List.cons_append, List.nil_append]
        rw [utf8DecodeBytes, dif_neg (List.cons_ne_nil _ _)]
        have hA : ¬ (0xE0 + c.toNat / 4096 < 0x80) := by omega
        have hB : ¬ (0xE0 + c.toNat / 4096 < 0xC0) := by omega
        have hC : ¬ (0xE0 + c.toNat / 4096 < 0xE0) := by omega
        have hD : 0xE0 + c.toNat / 4096 < 0xF0 := by omega
        have hE : (0x80 ≤ 0x80 + c.toNat / 64 % 64 ∧ 0x80 + c.toNat / 64 % 64 < 0xC0) ∧
            0x80 ≤ 0x80 + c.toNat % 64 ∧ 0x80 + c.toNat % 64 < 0xC0 := by
          refine ⟨⟨?_, ?_⟩, ?_, ?_⟩ <;> omega
        have harg : (0xE0 + c.toNat / 4096 - 0xE0) * 4096 +
            (0x80 + c.toNat / 64 % 64 - 0x80) * 64 + (0x80 + c.toNat % 64 - 0x80)
            = c.toNat := by omega
        simp [hA, hB, hC, hD, hE, harg, hofNat, Nat.le_add_left]
        rw [show c.toNat / 4096 * 4096 + c.toNat / 64 % 64 * 64 + c.toNat % 64
          = c.toNat by omega, hofNat]
      · rw [if_neg h3]
        simp only [List.cons_append, List.nil_append]
        rw [utf8DecodeBytes, dif_neg (List.cons_ne_nil _ _)]
        have hA : ¬ (0xF0 + c.toNat / 262144 < 0x80) := by omega
        have hB : ¬ (0xF0 + c.toNat / 262144 < 0xC0) := by omega
        have hC : ¬ (0xF0 + c.toNat / 262144 < 0xE0) := by omega
        have hD : ¬ (0xF0 + c.toNat / 262144 < 0xF0) := by omega
        have hD2 : 0xF0 + c.toNat / 262144 < 0xF8 := by omega
        have hE : (0x80 ≤ 0x80 + c.toNat / 4096 % 64 ∧
              0x80 + c.toNat / 4096 % 64 < 0xC0) ∧
            (0x80 ≤ 0x80 + c.toNat / 64 % 64 ∧ 0x80 + c.toNat / 64 % 64 < 0xC0) ∧
            0x80 ≤ 0x80 + c.toNat % 64 ∧ 0x80 + c.toNat % 64 < 0xC0 := by
          refine ⟨⟨?_, ?_⟩, ⟨?_, ?_⟩, ?_, ?_⟩ <;> omega
        have harg : (0xF0 + c.toNat / 262144 - 0xF0) * 262144 +
            (0x80 + c.toNat / 4096 % 64 - 0x80) * 4096 +
            (0x80 + c.toNat / 64 % 64 - 0x80) * 64 + (0x80 + c.toNat % 64 - 0x80)
            = c.toNat := by omega
        simp [hA, hB, hC, hD, hD2, hE, harg, hofNat, Nat.le_add_left]
        rw [show c.toNat / 262144 * 262144 + c.toNat / 4096 % 64 * 4096 +
          c.toNat / 64 % 64 * 64 + c.toNat % 64 = c.toNat by omega, hofNat]

/-- UTF-8 decoding inverts UTF-8 encoding. -/
theorem utf8Decode_utf8Encode (s : String) :
    utf8DecodeBytes (utf8Encode s) = some s.data := by
  rw [utf8Encode]
  induction s.data with
  | nil =>
    simp only [List.map_nil, List.flatten_nil]
    rw [utf8DecodeBytes]
    simp
  | cons c cs ih =>
    rw [List.map_cons, List.flatten_cons, utf8DecodeBytes_encodeChar, ih]
    rfl

theorem string_mk_data (s : String) : String.mk s.data = s := rfl

/-- C5: for every JSON-serializable value `v` and every set key `k`,
`decryptJSON(encryptJSON(v))` yields a value structurally equal to `v`
(the external `JSON.parse`/`JSON.stringify` pair is assumed to round-trip
on `v`, and the IV drawn by `crypto.randomBytes` is 16 in-range bytes). -/
theorem encryptJSON_decryptJSON_roundtrip {J : Type} (C : BlockCipher)
    (L : JSONCodec J) (k : Bytes) (ts : TopSecret) (iv : Bytes) (v : J)
    (hk : ts.key = some k) (hC : LawfulCipher C k) (hiv : iv.length = 16)
    (hivB : ∀ x ∈ iv, x < 256)
    (hparse : L.parse (L.stringify v) = some v) :
    ∃ txt, encryptJSON C L ts iv v = Except.ok txt ∧
      decryptJSON C L ts txt = Except.ok v := by
  have hencB := encryptBuffer_ok C k ts iv (utf8Encode (L.stringify v)) hk
  have hbound : ∀ x ∈ iv ++
      (cbcEncBlocks C k iv
        (toBlocks (pkcs7pad (utf8Encode (L.stringify v))))).flatten, x < 256 := by
    intro x hx
    rcases List.mem_append.mp hx with hx | hx
    · exact hivB x hx
    · rcases List.mem_flatten.mp hx with ⟨cblk, hcm, hxc⟩
      exact cbcEncBlocks_bounded C k hC _ iv hiv hivB
        (toBlocks_length_all _ (pkcs7pad_mod _))
        (toBlocks_bounded _ (pkcs7pad_bounded _ (utf8Encode_bounded _)))
        cblk hcm x hxc
  have hdecB := roundtrip_core C k ts iv (utf8Encode (L.stringify v)) hk hC hiv
  refine ⟨b64Encode (iv ++
      (cbcEncBlocks C k iv
        (toBlocks (pkcs7pad (utf8Encode (L.stringify v))))).flatten), ?_, ?_⟩
  · simp only [encryptJSON, hk, hencB]
  · simp only [decryptJSON, hk, b64Decode_b64Encode _ hbound, hdecB,
      utf8Decode_utf8Encode, string_mk_data, hparse]

/-- Witness for C5 at the trivial codec over `Unit` and a concrete key. -/
theorem encryptJSON_decryptJSON_roundtrip_witness :
    ∃ txt,
      encryptJSON idCipher unitCodec
        { key := some (List.replicate 32 7), password := none }
        (List.replicate 16 1) () = Except.ok txt ∧
      decryptJSON idCipher unitCodec
        { key := some (List.replicate 32 7), password := none }
        txt = Except.ok () :=
  encryptJSON_decryptJSON_roundtrip idCipher unitCodec (List.replicate 32 7) _
    (List.replicate 16 1) () rfl (idCipher_lawful _) (by simp) (by decide) rfl

/-- C6: setting a non-empty password derives the key as the SHA-256 digest
of the UTF-8 password bytes, so two instances given the same password hold
identical keys; an empty password fails with the validation error (the
`typeof` half of the guard is enforced by typing in this embedding). -/
theorem setPassword_spec (sha256 : Bytes → Bytes) (ts1 ts2 : TopSecret)
    (p : String) :
    (p.length ≠ 0 →
      setPassword sha256 ts1 p =
        Except.ok { key := some (sha256 (utf8Encode p)), password := some p } ∧
      setPassword sha256 ts2 p =
        Except.ok { key := some (sha256 (utf8Encode p)), password := some p }) ∧
    (p.length = 0 →
      setPassword sha256 ts1 p = Except.error Err.ValidationError) := by
  constructor
  · intro hp
    constructor <;> simp [setPassword, hp]
  · intro hp
    simp [setPassword, hp]

/-- Witness for C6 at a concrete digest function, two distinct instances
and the passwords `"a"` and `""`. -/
theorem setPassword_spec_witness :
    setPassword constHash freshTopSecret "a" =
      Except.ok { key := some (constHash (utf8Encode "a")),
                  password := some "a" } ∧
    setPassword constHash { key := none, password := some "x" } "a" =
      Except.ok { key := some (constHash (utf8Encode "a")),
                  password := some "a" } ∧
    setPassword constHash freshTopSecret "" = Except.error Err.ValidationError :=
  ⟨((setPassword_spec constHash freshTopSecret freshTopSecret "a").1
      (by decide)).1,
   ((setPassword_spec constHash freshTopSecret
      { key := none, password := some "x" } "a").1 (by decide)).2,
   (setPassword_spec constHash freshTopSecret freshTopSecret "").2 rfl⟩

/-- C2 (code bug): the `key` setter never succeeds on a 64-character hex
string.  After the length-64 check passes, `this._key = value.from("hex")`
raises `TypeError: value.from is not a function` (a JS string has no `from`
method; the author meant `Buffer.from(value, "hex")`), so the key is never
assigned; the test suite of the repository itself assigns
`topSecret.key = topSecret.randomKey` and would fail here.  Strings of
length other than 64 do reach the documented validation error. -/
theorem setKey_hex64_typeError :
    setKey freshTopSecret
      "0000000000000000000000000000000000000000000000000000000000000000" =
      Except.error Err.TypeError ∧
    setKey freshTopSecret "abc" = Except.error Err.ValidationError ∧
    Err.TypeError ≠ Err.ValidationError := by
  refine ⟨?_, ?_, by decide⟩
  · rw [setKey, if_neg (by decide)]
  · rw [setKey, if_pos (by decide)]

/-- C3 counterexample: on an instance with no key set, the `key` getter
dereferences `this._key` (null) and raises a `TypeError`, not the
precondition error the claim states. -/
theorem getKey_unset_not_preconditionError :
    getKey freshTopSecret = Except.error Err.TypeError ∧
    getKey freshTopSecret ≠ Except.error Err.PreconditionError := by
  constructor
  · rfl
  · intro h
    rw [show getKey freshTopSecret = Except.error Err.TypeError from rfl] at h
    exact absurd (Except.error.inj h) (by decide)

theorem hexflat_length (bs : Bytes) :
    ((bs.map hexOfByte).flatten).length = 2 * bs.length := by
  induction bs with
  | nil => rfl
  | cons b rest ih =>
    simp only [List.map_cons, List.flatten_cons, List.length_append, ih,
      List.length_cons, hexOfByte]
    simp
    omega

theorem bytesToHex_length (bs : Bytes) :
    (bytesToHex bs).length = 2 * bs.length := by
  show ((bs.map hexOfByte).flatten).length = 2 * bs.length
  exact hexflat_length bs

/-- C3 (amended): on an instance with no key set, the `key` getter fails
with a `TypeError` (null dereference) rather than a precondition error;
on an instance whose key is set (32 bytes), it returns the key as a
64-character hex string. -/
theorem getKey_spec_amended (ts : TopSecret) (k : Bytes) :
    (ts.key = none → getKey ts = Except.error Err.TypeError) ∧
    (ts.key = some k → k.length = 32 →
      ∃ s, getKey ts = Except.ok s ∧ s.length = 64) := by
  constructor
  · intro h
    simp [getKey, h]
  · intro h hk
    refine ⟨bytesToHex k, by simp [getKey, h], ?_⟩
    rw [bytesToHex_length, hk]

/-- Witness for the amended C3 at the fresh instance and a 32-byte key. -/
theorem getKey_spec_amended_witness :
    getKey freshTopSecret = Except.error Err.TypeError ∧
    ∃ s, getKey { key := some (List.replicate 32 7), password := none } =
      Except.ok s ∧ s.length = 64 :=
  ⟨(getKey_spec_amended freshTopSecret []).1 rfl,
   (getKey_spec_amended { key := some (List.replicate 32 7), password := none }
      (List.replicate 32 7)).2 rfl (by simp)⟩

/-- Concrete in-memory file system used to evaluate the file theorems on
closed inputs. -/
def demoFS : FSModel :=
  fun n => if n = "lorem.txt" then some [1, 2, 3] else none

/-- C9: with a key set, running `encryptFile(src, enc)` followed by
`decryptFile(enc, dst)` leaves `dst` containing exactly the original byte
content of `src` (file operations modelled from spec section 4.4, as
`encryptFile`/`decryptFile` are absent from `src/index.js`). -/
theorem encryptFile_decryptFile_roundtrip (C : BlockCipher) (k : Bytes)
    (ts : TopSecret) (iv : Bytes) (fs : FSModel) (src enc dst : String)
    (content : Bytes) (hk : ts.key = some k) (hC : LawfulCipher C k)
    (hiv : iv.length = 16) (hsrc : fs src = some content) :
    ∃ fs1 fs2, encryptFile C ts iv fs src enc = Except.ok fs1 ∧
      decryptFile C ts fs1 enc dst = Except.ok fs2 ∧
      fs2 dst = some content := by
  have hread : readFileSync fs src = Except.ok content := by
    simp [readFileSync, hsrc]
  have hencB := encryptBuffer_ok C k ts iv content hk
  have hdecB := roundtrip_core C k ts iv content hk hC hiv
  refine ⟨writeFileSync fs enc
      (iv ++ (cbcEncBlocks C k iv (toBlocks (pkcs7pad content))).flatten),
    writeFileSync
      (writeFileSync fs enc
        (iv ++ (cbcEncBlocks C k iv (toBlocks (pkcs7pad content))).flatten))
      dst content, ?_, ?_, ?_⟩
  · simp only [encryptFile, hread, hencB]
  · have hread2 : readFileSync
        (writeFileSync fs enc
          (iv ++ (cbcEncBlocks C k iv (toBlocks (pkcs7pad content))).flatten))
        enc = Except.ok
          (iv ++ (cbcEncBlocks C k iv (toBlocks (pkcs7pad content))).flatten) := by
      simp [readFileSync, writeFileSync]
    simp only [decryptFile, hread2, hdecB]
  · simp [writeFileSync]

/-- Witness for C9 at a concrete file system, key and IV. -/
theorem encryptFile_decryptFile_roundtrip_witness :
    ∃ fs1 fs2,
      encryptFile idCipher { key := some (List.replicate 32 7), password := none }
        (List.replicate 16 1) demoFS "lorem.txt" "encrypted.txt" =
        Except.ok fs1 ∧
      decryptFile idCipher { key := some (List.replicate 32 7), password := none }
        fs1 "encrypted.txt" "decrypted.txt" = Except.ok fs2 ∧
      fs2 "decrypted.txt" = some [1, 2, 3] :=
  encryptFile_decryptFile_roundtrip idCipher (List.replicate 32 7) _
    (List.replicate 16 1) demoFS "lorem.txt" "encrypted.txt" "decrypted.txt"
    [1, 2, 3] rfl (idCipher_lawful _) (by simp) rfl
